import Mathlib

/-!
Verification development for the HelloPromise repository
(`src/HelloPromise.js`), a Promises/A+ deferred-value container.

The JavaScript source is shallowly embedded as an executable operational
model:

* `JSValue` models the JavaScript values the library inspects: primitives,
  own promises (`instanceof HelloPromise`), and foreign non-null
  objects / callables, whose `then` member is defunctionalized by
  `GetResult` / `ThenAct` (the only way the library interacts with a
  foreign value is retrieving `.then` once and, when callable, invoking it
  with two callbacks).
* `Core` is the mutable state the methods touch: the heap of promise
  objects, the FIFO macrotask queue fed by `runAsync = fn => setTimeout(fn, 0)`,
  plus ghost instrumentation (a fresh-id counter for registered callbacks
  and a registration log) that only observes and never alters behavior.
* `transitionCore`, `executeCallbacksCore`, `addCallbackCore`,
  `thenOpCore`, `resolverGo`, `runFn`, `runHandler`, `fireLoop`,
  `runTask`, `runMachine` are line-by-line translations of `_transition`,
  `_executeCallbacks`, `_addCallback`, `then`, `_resolver` / `_handleThen`,
  the `member` wrapper bodies, the `fire` drain loop, and the host event
  loop running one queued task per turn.

All recursion is fuel-indexed (structural on a `Nat`), so every closed
computation reduces definitionally; fuel `0` returns the state unchanged.
-/

namespace HelloPromiseModel

mutual

/-- Defunctionalized JavaScript values, as the library distinguishes them:
`null`/`undefined`/booleans/numbers/strings are primitives (neither
`typeof value === 'object' && value` nor `typeof value === 'function'`
holds for them except `null`, which is excluded by the truthiness check on
line 182); `promise pid` is a value satisfying `value instanceof
HelloPromise` (line 39), referring to heap slot `pid`; `obj acc` /
`func acc` are foreign non-null objects resp. callables, where `acc`
lists the result of each successive retrieval of their `then` member
(the source retrieves it exactly once, line 147); `typeError msg` is the
`TypeError` created on line 174. -/
inductive JSValue where
  | null
  | undef
  | vbool (b : Bool)
  | num (n : Int)
  | str (s : String)
  | promise (pid : Nat)
  | obj (acc : List GetResult)
  | func (acc : List GetResult)
  | typeError (msg : String)

/-- Result of one retrieval of a foreign value's `then` member
(line 147 `const then = value.then`): the access can throw (a throwing
getter), yield a non-callable value (line 149 `!isFunction(then)`), or
yield a callable whose invocation (line 153 `then.call(value, …)`)
synchronously performs the listed calls to the two callbacks it was
handed, optionally followed by throwing (caught on line 159). -/
inductive GetResult where
  | throws (r : JSValue)
  | notFn (v : JSValue)
  | fn (body : List ThenAct)
  | fnThenThrows (body : List ThenAct) (r : JSValue)

/-- One synchronous call a foreign `then` implementation makes to the pair
of callbacks `y => once(_ => this._resolver(y))` / `y => once(_ => this._reject(y))`
it received (lines 154–155). -/
inductive ThenAct where
  | callRes (y : JSValue)
  | callRej (y : JSValue)

end

/-- The `states` enum of the source (lines 28–35). -/
inductive States where
  | pending
  | resolved
  | rejected
deriving DecidableEq, Repr

/-- Which member of a stored callback pair the drain selects
(line 76: `'onFulfilled'` when resolved, `'onRejected'` when rejected). -/
inductive CbSel where
  | onFulfilled
  | onRejected
deriving DecidableEq, Repr

/-- Defunctionalized handler functions that can be passed to `then`:
pure user handlers used in the spec's scenarios (`constF`, `addOne`,
`strLen`, `throwF`), a user handler that re-enters the API by calling
`src.then(g)` (`thenRegF`), and the bound methods `this._resolver` /
`this._reject` which `_resolver` passes to `value.then` on line 178
(`resolverOf` / `rejectOf`). -/
inductive FnCode where
  | constF (u : JSValue)
  | addOne
  | strLen
  | throwF (u : JSValue)
  | resolverOf (pid : Nat)
  | rejectOf (pid : Nat)
  | thenRegF (src : Nat) (g : Option FnCode)

/-- The only handler shape ever stored in a callback pair: the closure
`member(fn, fallback)` built inside `then` (lines 203–215), carrying the
optional user handler `fn`, whether the omitted-handler fallback is the
new promise's `resolve` (`fallbackRes = true`, used for the
`onFulfilled` slot) or its `reject` (`false`, the `onRejected` slot), and
the heap id `np` of the promise returned by `then`. -/
inductive HandlerCode where
  | member (fn : Option FnCode) (fallbackRes : Bool) (np : Nat)

/-- A registered reaction pair (the object literal on lines 217–220),
instrumented with a ghost registration id `cbId` (ids are assigned from a
global counter in registration order, so per-promise registration order
coincides with increasing `cbId`). -/
structure Callback where
  cbId : Nat
  onFulfilled : HandlerCode
  onRejected : HandlerCode

/-- One HelloPromise instance on the heap: `state`, `value` (initialized
`null`), `callbacks` (lines 54–56). -/
structure PromObj where
  state : States
  value : JSValue
  callbacks : List Callback

/-- One macrotask scheduled by `runAsync(fire)` (line 88): which promise
to drain, the captured `member` selector (line 76), and the ghost tag
recording the turn during which it was enqueued. -/
structure STask where
  pid : Nat
  sel : CbSel
  tag : Nat
deriving DecidableEq, Repr

/-- Ghost log entry: promise `pid`, callback id `cbId`, and the turn
number `turn` at which the event (a registration, or a handler
invocation by the drain) happened. -/
structure Ev where
  pid : Nat
  cbId : Nat
  turn : Nat
deriving DecidableEq, Repr

/-- The state the source's methods read and write: the heap of promise
objects (a `HelloPromise` is identified with its index), the FIFO
macrotask queue, and ghost instrumentation: `nextCb`, the fresh-id
counter for callback registration, and `regLog`, the registration log. -/
structure Core where
  heap : List PromObj
  tasks : List STask
  nextCb : Nat
  regLog : List Ev

/-- The whole machine: the core state, the current scheduling-turn number
(`0` while the initial synchronous code runs; each macrotask execution is
a fresh, strictly later turn), and the ghost log of handler invocations
performed by the drain loop (line 83 `callback[member](this.value)`). -/
structure World where
  core : Core
  turn : Nat
  log : List Ev

/-- State of heap slot `pid`, when present. -/
def stateOf (c : Core) (pid : Nat) : Option States :=
  match c.heap[pid]? with
  | some p => some p.state
  | none => none

/-- Settled value of heap slot `pid`, when present. -/
def valueOf (c : Core) (pid : Nat) : Option JSValue :=
  match c.heap[pid]? with
  | some p => some p.value
  | none => none

/-- Callback queue of heap slot `pid` (empty for an absent slot). -/
def cbsOf (c : Core) (pid : Nat) : List Callback :=
  match c.heap[pid]? with
  | some p => p.callbacks
  | none => []

/-- Line 76: `this.state === states.resolved ? 'onFulfilled' : 'onRejected'`. -/
def selOf (s : States) : CbSel :=
  if s = States.resolved then CbSel.onFulfilled else CbSel.onRejected

/-- `_executeCallbacks` (lines 70–89): bail while pending; otherwise
schedule, via `runAsync` (a FIFO macrotask), a drain of this promise with
the captured member selector. The task is tagged with the current turn. -/
def executeCallbacksCore (turn : Nat) (c : Core) (pid : Nat) : Core :=
  match c.heap[pid]? with
  | none => c
  | some p =>
    if p.state = States.pending then c
    else { c with tasks := c.tasks ++ [⟨pid, selOf p.state, turn⟩] }

/-- `_transition` (lines 113–122): a silent no-op unless currently
pending; otherwise store `value` and `state` and trigger the drain. -/
def transitionCore (turn : Nat) (c : Core) (pid : Nat) (st : States) (v : JSValue) : Core :=
  match c.heap[pid]? with
  | none => c
  | some p =>
    if p.state = States.pending then
      executeCallbacksCore turn
        { c with heap := c.heap.set pid { p with state := st, value := v } } pid
    else c

/-- `_fulfill` (line 232). -/
def fulfillP (turn : Nat) (c : Core) (pid : Nat) (v : JSValue) : Core :=
  transitionCore turn c pid States.resolved v

/-- `_reject` (line 241). -/
def rejectP (turn : Nat) (c : Core) (pid : Nat) (r : JSValue) : Core :=
  transitionCore turn c pid States.rejected r

/-- `_addCallback` (lines 100–103): push the reaction pair, then try to
drain (the promise may already have settled). The ghost id `nextCb` is
attached to the new pair and the registration is logged. -/
def addCallbackCore (turn : Nat) (c : Core) (pid : Nat) (hF hR : HandlerCode) : Core :=
  match c.heap[pid]? with
  | none => c
  | some p =>
    let cb : Callback := ⟨c.nextCb, hF, hR⟩
    let c1 : Core :=
      { c with
        heap := c.heap.set pid { p with callbacks := p.callbacks ++ [cb] }
        nextCb := c.nextCb + 1
        regLog := c.regLog ++ [⟨pid, c.nextCb, turn⟩] }
    executeCallbacksCore turn c1 pid

/-- The constructor's synchronous part (lines 53–56): a fresh promise with
`value = null`, `state = pending`, `callbacks = []` appended to the heap;
returns its id. -/
def mkPromiseCore (c : Core) : Core × Nat :=
  ({ c with heap := c.heap ++ [⟨States.pending, JSValue.null, []⟩] }, c.heap.length)

/-- `then` (lines 200–222): synchronously construct a new promise whose
executor registers on the source the pair
`{ onFulfilled: member(onFulfilled, resolve), onRejected: member(onRejected, reject) }`,
where `resolve` / `reject` are the new promise's `_resolver` / `_reject`.
Returns the updated state and the new promise's id. -/
def thenOpCore (turn : Nat) (c : Core) (src : Nat) (onF onR : Option FnCode) : Core × Nat :=
  let m := mkPromiseCore c
  (addCallbackCore turn m.1 src
    (HandlerCode.member onF true m.2) (HandlerCode.member onR false m.2), m.2)

/-- Call descriptor for the synchronous resolution cluster:
`rv pid v` is `_resolver` applied to `v` for promise `pid` (lines 172–188),
`ht pid orig acc` is `_handleThen` (lines 133–162) where `orig` is the
foreign value itself and `acc` its remaining `then`-retrieval results, and
`acts pid l was` is the foreign `then` body invoking the two `once`-guarded
callbacks (lines 153–156), with `was` the current value of `wasCalled`. -/
inductive RTask where
  | rv (pid : Nat) (v : JSValue)
  | ht (pid : Nat) (orig : JSValue) (acc : List GetResult)
  | acts (pid : Nat) (l : List ThenAct) (was : Bool)

/-- Message of the `TypeError` on line 174. -/
def selfMsg : String := "The promise and its value refer to the same object"

/-- Result of the resolution cluster: the updated core, the ghost maximum
nesting depth of synchronous `_resolver` activations reached during the
call (each `rv` frame contributes 1; registrations through the scheduler
contribute nothing), the final `wasCalled` flag (meaningful for `acts`
only), and the JavaScript return value of the call. -/
structure RRes where
  core : Core
  depth : Nat
  was : Bool
  ret : JSValue

/-- The synchronous resolution cluster, fuel-indexed (fuel `0` is a
no-op; every recursion strictly consumes fuel so closed calls reduce).

`rv pid v` is `_resolver` (lines 172–188), checked in source order:
2.3.1 `value === this` rejects with the `TypeError`; 2.3.2
`value instanceof HelloPromise` subscribes via
`value.then(this._resolver, this._reject)` (the recursive step is thereby
deferred to a later drain turn of `value`; the call returns the new chain
promise); 2.3.3 a truthy object or callable goes to `_handleThen`; 2.3.4
anything else fulfills directly.

`ht pid orig acc` is `_handleThen`: retrieve `then` once (the head of
`acc`); a throwing retrieval is caught and rejects (`wasCalled` is still
false there); a non-callable `then` fulfills with the foreign value
itself; a callable one is invoked, its body's calls being filtered by the
shared `once` latch; if the body throws at the end, the catch rejects
only when the latch never fired.

`acts pid l was` runs the body's calls through `once` (lines 139–143):
a call is skipped when `wasCalled` is already true, and `wasCalled` is
set after the callback's effect (sequential calls, as performed by this
defunctionalized foreign code, cannot observe the set-after-run order;
the re-entrant case, where the foreign code captures the callbacks and
re-invokes them from inside the first invocation, is modeled separately
by `goCalls` below). -/
def resolverGo : Nat → Nat → RTask → Core → RRes
  | 0, _, _, c => ⟨c, 0, false, JSValue.undef⟩
  | fuel + 1, turn, RTask.rv pid v, c =>
    match v with
    | JSValue.promise q =>
      if q = pid then
        ⟨rejectP turn c pid (JSValue.typeError selfMsg), 1, false, JSValue.undef⟩
      else
        let r := thenOpCore turn c q (some (FnCode.resolverOf pid)) (some (FnCode.rejectOf pid))
        ⟨r.1, 1, false, JSValue.promise r.2⟩
    | JSValue.obj acc =>
      let r := resolverGo fuel turn (RTask.ht pid (JSValue.obj acc) acc) c
      ⟨r.core, 1 + r.depth, false, JSValue.undef⟩
    | JSValue.func acc =>
      let r := resolverGo fuel turn (RTask.ht pid (JSValue.func acc) acc) c
      ⟨r.core, 1 + r.depth, false, JSValue.undef⟩
    | v => ⟨fulfillP turn c pid v, 1, false, JSValue.undef⟩
  | fuel + 1, turn, RTask.ht pid orig acc, c =>
    match acc with
    | [] => ⟨fulfillP turn c pid orig, 0, false, JSValue.undef⟩
    | GetResult.throws r :: _ => ⟨rejectP turn c pid r, 0, false, JSValue.undef⟩
    | GetResult.notFn _ :: _ => ⟨fulfillP turn c pid orig, 0, false, JSValue.undef⟩
    | GetResult.fn body :: _ =>
      let r := resolverGo fuel turn (RTask.acts pid body false) c
      ⟨r.core, r.depth, false, JSValue.undef⟩
    | GetResult.fnThenThrows body r :: _ =>
      let x := resolverGo fuel turn (RTask.acts pid body false) c
      ⟨if x.was then x.core else rejectP turn x.core pid r, x.depth, false, JSValue.undef⟩
  | fuel + 1, turn, RTask.acts pid l was, c =>
    match l with
    | [] => ⟨c, 0, was, JSValue.undef⟩
    | a :: rest =>
      if was then resolverGo fuel turn (RTask.acts pid rest was) c
      else
        match a with
        | ThenAct.callRes y =>
          let r1 := resolverGo fuel turn (RTask.rv pid y) c
          let r2 := resolverGo fuel turn (RTask.acts pid rest true) r1.core
          ⟨r2.core, max r1.depth r2.depth, r2.was, JSValue.undef⟩
        | ThenAct.callRej y =>
          resolverGo fuel turn (RTask.acts pid rest true) (rejectP turn c pid y)

/-- Evaluation of a defunctionalized handler function applied to `v`:
returns the updated core and either the JavaScript return value or the
thrown value. `resolverOf` / `rejectOf` are the bound `this._resolver` /
`this._reject` (the former returns the chain promise in its 2.3.2 branch
and `undefined` otherwise; the latter returns `undefined`); `thenRegF`
performs `src.then(g)` and returns `undefined`. -/
def runFn (fuel turn : Nat) (f : FnCode) (v : JSValue) (c : Core) :
    Core × Except JSValue JSValue :=
  match f with
  | FnCode.constF u => (c, Except.ok u)
  | FnCode.addOne =>
    match v with
    | JSValue.num n => (c, Except.ok (JSValue.num (n + 1)))
    | _ => (c, Except.ok JSValue.undef)
  | FnCode.strLen =>
    match v with
    | JSValue.str s => (c, Except.ok (JSValue.num (s.length : Int)))
    | _ => (c, Except.ok JSValue.undef)
  | FnCode.throwF u => (c, Except.error u)
  | FnCode.resolverOf pid =>
    let r := resolverGo fuel turn (RTask.rv pid v) c
    (r.core, Except.ok r.ret)
  | FnCode.rejectOf pid => (rejectP turn c pid v, Except.ok JSValue.undef)
  | FnCode.thenRegF src g => ((thenOpCore turn c src g none).1, Except.ok JSValue.undef)

/-- Invocation of a stored handler (the `member(fn, fallback)` closure,
lines 203–215): with no user handler, fall back to the new promise's
`resolve` (for the `onFulfilled` slot) or `reject` (2.2.7.3 / 2.2.7.4);
with one, run it guarded — a normal return resolves the new promise with
the returned value (2.2.7.1), a throw rejects it with the thrown value
(2.2.7.2). -/
def runHandler (fuel turn : Nat) (h : HandlerCode) (v : JSValue) (c : Core) : Core :=
  match h with
  | HandlerCode.member none true np => (resolverGo fuel turn (RTask.rv np v) c).core
  | HandlerCode.member none false np => rejectP turn c np v
  | HandlerCode.member (some f) _ np =>
    let r := runFn fuel turn f v c
    match r.2 with
    | Except.ok u => (resolverGo fuel turn (RTask.rv np u) r.1).core
    | Except.error e => rejectP turn r.1 np e

/-- Select the member of a pair the drain invokes. -/
def selectHandler (sel : CbSel) (cb : Callback) : HandlerCode :=
  match sel with
  | CbSel.onFulfilled => cb.onFulfilled
  | CbSel.onRejected => cb.onRejected

/-- The `fire` loop (lines 78–85): while the live callback queue is
non-empty, shift the earliest pair off the queue and invoke the captured
member with the current settled value. The queue is re-read on every
iteration, so pairs appended by a handler during the drain are picked up
by the same loop. Each invocation is logged with the current turn. -/
def fireLoop : Nat → Nat → CbSel → World → World
  | 0, _, _, w => w
  | fuel + 1, pid, sel, w =>
    match w.core.heap[pid]? with
    | none => w
    | some p =>
      match p.callbacks with
      | [] => w
      | cb :: rest =>
        let c1 : Core := { w.core with heap := w.core.heap.set pid { p with callbacks := rest } }
        let c2 := runHandler fuel w.turn (selectHandler sel cb) p.value c1
        fireLoop fuel pid sel { core := c2, turn := w.turn, log := w.log ++ [⟨pid, cb.cbId, w.turn⟩] }

/-- The host scheduler executing the earliest queued macrotask, in a
fresh, strictly later turn. -/
def runTask (fuel : Nat) (w : World) : World :=
  match w.core.tasks with
  | [] => w
  | tk :: rest =>
    fireLoop fuel tk.pid tk.sel
      { core := { w.core with tasks := rest }, turn := w.turn + 1, log := w.log }

/-- The host event loop: run queued macrotasks in FIFO order until the
queue is empty or fuel runs out. -/
def runMachine : Nat → World → World
  | 0, w => w
  | fuel + 1, w =>
    match w.core.tasks with
    | [] => w
    | _ => runMachine fuel (runTask fuel w)

/-- `HelloPromise.resolve` (line 251): a new promise whose executor
immediately calls the bound `_resolver` with `value`. -/
def resolveStatic (fuel turn : Nat) (c : Core) (v : JSValue) : Core × Nat :=
  let m := mkPromiseCore c
  ((resolverGo fuel turn (RTask.rv m.2 v) m.1).core, m.2)

/-- `HelloPromise.reject` (line 261): a new promise whose executor
immediately calls the bound `_reject` with `reason` (no resolution
procedure is involved). -/
def rejectStatic (turn : Nat) (c : Core) (r : JSValue) : Core × Nat :=
  let m := mkPromiseCore c
  (rejectP turn m.1 m.2 r, m.2)

/-- A settlement attempt on a container: a call to `_fulfill` (line 232)
or `_reject` (line 241), each of which delegates to `_transition`. -/
inductive Attempt where
  | fulfillA (v : JSValue)
  | rejectA (r : JSValue)

/-- Apply one settlement attempt. -/
def applyAttempt (turn : Nat) (c : Core) (pid : Nat) : Attempt → Core
  | Attempt.fulfillA v => fulfillP turn c pid v
  | Attempt.rejectA r => rejectP turn c pid r

/-- Terminal state an attempt requests. -/
def attemptState : Attempt → States
  | Attempt.fulfillA _ => States.resolved
  | Attempt.rejectA _ => States.rejected

/-- Payload an attempt carries. -/
def attemptPayload : Attempt → JSValue
  | Attempt.fulfillA v => v
  | Attempt.rejectA r => r

/-- Abstract payload for the dedicated model of the `once` latch
(lines 139–143): `plainV n` stands for a callback invocation whose value
is a plain (non-thenable) one, so that running `fn` (which applies
`this._resolver` to it) fulfills the dependent container — subject to the
`_transition` first-settlement guard; `subV` stands for an invocation
whose value is a thenable, so that running `fn` only subscribes (no
immediate settlement), and whose subscription hands control to foreign
code that may call back into the same two latched callbacks. -/
inductive LPayload where
  | plainV (n : Nat)
  | subV
deriving DecidableEq, Repr

/-- One invocation of either latched callback (lines 154–155), together
with the invocations of the same two callbacks that the foreign code
performs re-entrantly while `fn` for this invocation is still running —
possible in JavaScript because the foreign `then` implementation keeps
references to both callbacks (e.g. a thenable `T2` whose `then` closes
over the outer `res` and calls it synchronously when `_resolver`
subscribes to `T2`). -/
inductive LCall where
  | mk (p : LPayload) (nested : List LCall)

/-- Faithful model of `once` (lines 139–143) processing a sequence of
invocations: state is `(wasCalled, container, fired)` where `container`
is the dependent container's settled value (`none` while pending; the
first fulfillment wins, per `_transition`) and `fired` is the ghost list
of payloads whose `fn` actually ran, in execution order.

Per the source: an invocation first checks `wasCalled` (line 140) and is
skipped entirely if set; otherwise `fn()` runs (line 141) — settling the
container when the payload is plain, and running the re-entrantly nested
invocations with `wasCalled` STILL UNSET, because line 142
(`wasCalled = true`) executes only after `fn()` returns; the flag is then
set and the next sibling invocation is processed. -/
def goCalls : Nat → Bool → Option Nat → List LPayload → List LCall → Bool × Option Nat × List LPayload
  | 0, was, cont, fired, _ => (was, cont, fired)
  | _ + 1, was, cont, fired, [] => (was, cont, fired)
  | fuel + 1, was, cont, fired, LCall.mk p nested :: rest =>
    if was then goCalls fuel was cont fired rest
    else
      let cont1 : Option Nat :=
        match p, cont with
        | LPayload.plainV n, none => some n
        | _, c => c
      let r := goCalls fuel was cont1 (fired ++ [p]) nested
      goCalls fuel true r.2.1 r.2.2 rest

/-- A synchronous foreign thenable chain of depth `n`: each link is a
non-null object whose callable `then` synchronously calls the resolve
callback it was handed with the next link; the innermost value is the
plain number `0`. -/
def chainT : Nat → JSValue
  | 0 => JSValue.num 0
  | n + 1 => JSValue.obj [GetResult.fn [ThenAct.callRes (chainT n)]]

/-- Whether a value is "a non-null object or callable with a callable
`then` member": its first `then` retrieval succeeds and yields a
callable. -/
def hasCallableThen : JSValue → Bool
  | JSValue.obj (GetResult.fn _ :: _) => true
  | JSValue.obj (GetResult.fnThenThrows _ _ :: _) => true
  | JSValue.func (GetResult.fn _ :: _) => true
  | JSValue.func (GetResult.fnThenThrows _ _ :: _) => true
  | _ => false

/-- Whether a value is a `HelloPromise` of this system (`instanceof`). -/
def isOwnPromise : JSValue → Bool
  | JSValue.promise _ => true
  | _ => false

/-- The class of values claim C7 quantifies over, following its words:
not a DeferredValue of this system (which also excludes the container
itself) and not a non-null object or callable with a callable `then`
member. -/
def claimOrdinary (v : JSValue) : Bool :=
  !isOwnPromise v && !hasCallableThen v

/-- The thrown value of a foreign value whose very first `then` retrieval
throws (a throwing getter), `none` otherwise. -/
def thenThrowsWith : JSValue → Option JSValue
  | JSValue.obj (GetResult.throws r :: _) => some r
  | JSValue.func (GetResult.throws r :: _) => some r
  | _ => none

/-- Registration ids of a promise object's queued reaction pairs. -/
def idsOf (p : PromObj) : List Nat :=
  p.callbacks.map (fun cb => cb.cbId)

/-- Strict sortedness of a list of ids: every element is below all later
ones. -/
def pairwiseLt : List Nat → Bool
  | [] => true
  | a :: t => t.all (fun x => decide (a < x)) && pairwiseLt t

/-- All ids below a bound. -/
def allLt (l : List Nat) (n : Nat) : Bool :=
  l.all (fun x => decide (x < n))

/-- Queue invariant: every promise's reaction queue is strictly sorted by
registration id and all ids are below the fresh-id counter. -/
def qinv (c : Core) : Bool :=
  c.heap.all (fun p => pairwiseLt (idsOf p) && allLt (idsOf p) c.nextCb)

/-- Per-container firing order: for any two logged handler invocations of
the same container, the earlier one has the smaller registration id. -/
def logPairsOk : List Ev → Bool
  | [] => true
  | e :: t => t.all (fun e2 => decide (e.pid ≠ e2.pid) || decide (e.cbId < e2.cbId)) && logPairsOk t

/-- Every logged invocation's id is below every id still queued on its
container (a fired reaction was removed before being invoked and is
never re-queued). -/
def logLtQueues (w : World) : Bool :=
  w.log.all (fun e => (cbsOf w.core e.pid).all (fun cb => decide (e.cbId < cb.cbId)))

/-- Every logged invocation's id is below the fresh-id counter. -/
def logLtNext (w : World) : Bool :=
  w.log.all (fun e => decide (e.cbId < w.core.nextCb))

/-- The drain invariant bundling the queue and log conditions. -/
def winv (w : World) : Bool :=
  qinv w.core && logPairsOk w.log && logLtQueues w && logLtNext w

/-- Every queued macrotask was enqueued during the current or an earlier
turn. -/
def tagsLE (w : World) : Bool :=
  w.core.tasks.all (fun tk => decide (tk.tag ≤ w.turn))

/-- What one synchronous (layer-1) operation, executed during scheduling
turn `turn`, may do to the core state: the fresh-id counter only grows;
tasks are only appended, each tagged with the current turn; reaction
queues only gain pairs carrying fresh ids; and the queue invariant is
preserved. Handler invocations never happen here (the invocation log is
not even part of `Core`), faithfully to the source, where `_transition`,
`_addCallback`, `_executeCallbacks`, `then`, `_resolver` and
`_handleThen` never call a stored handler directly — only `runAsync`
schedules the `fire` loop. -/
def CoreStep (turn : Nat) (c c' : Core) : Prop :=
  c.nextCb ≤ c'.nextCb ∧
  (∀ tk ∈ c'.tasks, tk ∈ c.tasks ∨ tk.tag = turn) ∧
  (∀ pid : Nat, ∀ cb ∈ cbsOf c' pid, cb ∈ cbsOf c pid ∨ c.nextCb ≤ cb.cbId) ∧
  (qinv c = true → qinv c' = true)

/-- The empty machine state. -/
def core0 : Core := ⟨[], [], 0, []⟩

/-- A heap with a single pending promise (id `0`) and nothing scheduled. -/
def coreP : Core := ⟨[⟨States.pending, JSValue.null, []⟩], [], 0, []⟩

/-- Concrete in-drain registration scenario: `p = HelloPromise.resolve(1)`
followed synchronously by `p.then(x => { p.then(_ => 7) })` — the outer
reaction's handler registers a second reaction on the already-settled `p`
while `p`'s drain is running. -/
def c3Start : World :=
  let r1 := resolveStatic 10 0 core0 (JSValue.num 1)
  let c := (thenOpCore 0 r1.1 r1.2
    (some (FnCode.thenRegF r1.2 (some (FnCode.constF (JSValue.num 7))))) none).1
  ⟨c, 0, []⟩

end HelloPromiseModel

namespace HelloPromiseModel

/-! ### Basic lemmas about the primitive state operations -/

theorem exec_heap (turn : Nat) (c : Core) (pid : Nat) :
    (executeCallbacksCore turn c pid).heap = c.heap := by
  unfold executeCallbacksCore
  cases c.heap[pid]? with
  | none => rfl
  | some p => by_cases h : p.state = States.pending <;> simp [h]

theorem exec_nextCb (turn : Nat) (c : Core) (pid : Nat) :
    (executeCallbacksCore turn c pid).nextCb = c.nextCb := by
  unfold executeCallbacksCore
  cases c.heap[pid]? with
  | none => rfl
  | some p => by_cases h : p.state = States.pending <;> simp [h]

theorem stateOf_eq_pending (c : Core) (pid : Nat) (hp : stateOf c pid = some States.pending) :
    ∃ p, c.heap[pid]? = some p ∧ p.state = States.pending := by
  unfold stateOf at hp
  cases h : c.heap[pid]? with
  | none => rw [h] at hp; exact absurd hp (by simp)
  | some p =>
    rw [h] at hp
    exact ⟨p, rfl, by injection hp⟩

theorem transition_settled (turn : Nat) (c : Core) (pid : Nat) (st : States) (v : JSValue)
    (p : PromObj) (hp : c.heap[pid]? = some p) (hs : p.state ≠ States.pending) :
    transitionCore turn c pid st v = c := by
  unfold transitionCore
  rw [hp]
  simp [hs]

theorem transition_pending_state (turn : Nat) (c : Core) (pid : Nat) (st : States) (v : JSValue)
    (p : PromObj) (hp : c.heap[pid]? = some p) (hs : p.state = States.pending) :
    stateOf (transitionCore turn c pid st v) pid = some st ∧
    valueOf (transitionCore turn c pid st v) pid = some v ∧
    cbsOf (transitionCore turn c pid st v) pid = p.callbacks := by
  unfold transitionCore
  rw [hp]
  dsimp only
  rw [if_pos hs]
  unfold stateOf valueOf cbsOf
  rw [exec_heap, List.getElem?_set_self', hp]
  exact ⟨rfl, rfl, rfl⟩

theorem applyAttempt_settled (turn : Nat) (c : Core) (pid : Nat) (a : Attempt)
    (p : PromObj) (hp : c.heap[pid]? = some p) (hs : p.state ≠ States.pending) :
    applyAttempt turn c pid a = c := by
  cases a with
  | fulfillA v => exact transition_settled turn c pid States.resolved v p hp hs
  | rejectA r => exact transition_settled turn c pid States.rejected r p hp hs

theorem foldl_applyAttempt_settled (turn : Nat) (pid : Nat) (rest : List Attempt) (c : Core)
    (st : States) (h : stateOf c pid = some st) (hst : st ≠ States.pending) :
    List.foldl (fun cc a => applyAttempt turn cc pid a) c rest = c := by
  induction rest with
  | nil => rfl
  | cons a t ih =>
    have hpe : ∃ p, c.heap[pid]? = some p ∧ p.state = st := by
      unfold stateOf at h
      cases hg : c.heap[pid]? with
      | none => rw [hg] at h; exact absurd h (by simp)
      | some p => rw [hg] at h; exact ⟨p, rfl, by injection h⟩
    obtain ⟨p, hp, hps⟩ := hpe
    have : applyAttempt turn c pid a = c :=
      applyAttempt_settled turn c pid a p hp (by rw [hps]; exact hst)
    simpa [this] using ih

/-! ### List lemmas for the queue and log invariants -/

theorem allLt_mono {l : List Nat} {n m : Nat} (h : allLt l n = true) (hnm : n ≤ m) :
    allLt l m = true := by
  simp only [allLt, List.all_eq_true, decide_eq_true_eq] at h ⊢
  exact fun x hx => lt_of_lt_of_le (h x hx) hnm

theorem allLt_append_one {l : List Nat} {n m : Nat} (h : allLt l m = true) (hn : n < m) :
    allLt (l ++ [n]) m = true := by
  simp only [allLt, List.all_eq_true, decide_eq_true_eq] at h ⊢
  intro x hx
  rcases List.mem_append.mp hx with h1 | h1
  · exact h x h1
  · rw [List.mem_singleton.mp h1]; exact hn

theorem allLt_of_tail {a : Nat} {l : List Nat} {n : Nat} (h : allLt (a :: l) n = true) :
    allLt l n = true := by
  simp only [allLt, List.all_eq_true] at h ⊢
  exact fun x hx => h x (List.mem_cons_of_mem a hx)

theorem allLt_head {a : Nat} {l : List Nat} {n : Nat} (h : allLt (a :: l) n = true) : a < n := by
  simp only [allLt, List.all_eq_true, decide_eq_true_eq] at h
  exact h a (List.mem_cons_self a l)

theorem pairwiseLt_tail {a : Nat} {l : List Nat} (h : pairwiseLt (a :: l) = true) :
    pairwiseLt l = true := by
  simp only [pairwiseLt, Bool.and_eq_true] at h
  exact h.2

theorem pairwiseLt_head {a : Nat} {l : List Nat} (h : pairwiseLt (a :: l) = true) :
    ∀ x ∈ l, a < x := by
  simp only [pairwiseLt, Bool.and_eq_true, List.all_eq_true, decide_eq_true_eq] at h
  exact h.1

theorem pairwiseLt_append_one {l : List Nat} {n : Nat} (h : pairwiseLt l = true)
    (hn : ∀ x ∈ l, x < n) : pairwiseLt (l ++ [n]) = true := by
  induction l with
  | nil => rfl
  | cons a t ih =>
    simp only [pairwiseLt, Bool.and_eq_true, List.all_eq_true, decide_eq_true_eq] at h ⊢
    refine ⟨?_, ?_⟩
    · intro x hx
      rcases List.mem_append.mp hx with h1 | h1
      · exact h.1 x h1
      · rw [List.mem_singleton.mp h1]; exact hn a (List.mem_cons_self a t)
    · have := ih h.2 (fun x hx => hn x (List.mem_cons_of_mem a hx))
      simpa [pairwiseLt] using this

theorem logPairsOk_append_one {l : List Ev} {e : Ev} (h : logPairsOk l = true)
    (he : ∀ e2 ∈ l, e2.pid ≠ e.pid ∨ e2.cbId < e.cbId) : logPairsOk (l ++ [e]) = true := by
  induction l with
  | nil => rfl
  | cons a t ih =>
    simp only [logPairsOk, Bool.and_eq_true, List.all_eq_true] at h ⊢
    refine ⟨?_, ?_⟩
    · intro e2 he2
      rcases List.mem_append.mp he2 with h1 | h1
      · exact h.1 e2 h1
      · rw [List.mem_singleton.mp h1]
        rcases he a (List.mem_cons_self a t) with hc | hc
        · simp [hc]
        · simp [hc]
    · have := ih h.2 (fun e2 he2 => he e2 (List.mem_cons_of_mem a he2))
      simpa [logPairsOk] using this

/-! ### CoreStep: what the synchronous operations may do -/

theorem CoreStep_rfl (turn : Nat) (c : Core) : CoreStep turn c c :=
  ⟨le_refl _, fun _ htk => Or.inl htk, fun _ _ hcb => Or.inl hcb, fun h => h⟩

theorem CoreStep_trans {turn : Nat} {c c1 c2 : Core}
    (h1 : CoreStep turn c c1) (h2 : CoreStep turn c1 c2) : CoreStep turn c c2 := by
  obtain ⟨hn1, ht1, hc1, hq1⟩ := h1
  obtain ⟨hn2, ht2, hc2, hq2⟩ := h2
  refine ⟨le_trans hn1 hn2, ?_, ?_, fun h => hq2 (hq1 h)⟩
  · intro tk htk
    rcases ht2 tk htk with h | h
    · exact ht1 tk h
    · exact Or.inr h
  · intro pid cb hcb
    rcases hc2 pid cb hcb with h | h
    · exact hc1 pid cb h
    · exact Or.inr (le_trans hn1 h)

theorem qinv_of_heap_nextCb {c c' : Core} (hh : c'.heap = c.heap) (hn : c'.nextCb = c.nextCb) :
    qinv c' = qinv c := by
  unfold qinv
  rw [hh, hn]

theorem cbsOf_of_heap {c c' : Core} (hh : c'.heap = c.heap) (pid : Nat) :
    cbsOf c' pid = cbsOf c pid := by
  unfold cbsOf
  rw [hh]

theorem exec_CoreStep (turn : Nat) (c : Core) (pid : Nat) :
    CoreStep turn c (executeCallbacksCore turn c pid) := by
  unfold executeCallbacksCore
  cases hg : c.heap[pid]? with
  | none => exact CoreStep_rfl turn c
  | some p =>
    dsimp only
    by_cases hs : p.state = States.pending
    · rw [if_pos hs]; exact CoreStep_rfl turn c
    · rw [if_neg hs]
      refine ⟨le_refl _, ?_, fun _ cb hcb => Or.inl hcb, fun h => h⟩
      intro tk htk
      rcases List.mem_append.mp htk with h | h
      · exact Or.inl h
      · exact Or.inr (by rw [List.mem_singleton.mp h])

theorem transition_CoreStep (turn : Nat) (c : Core) (pid : Nat) (st : States) (v : JSValue) :
    CoreStep turn c (transitionCore turn c pid st v) := by
  unfold transitionCore
  cases hg : c.heap[pid]? with
  | none => exact CoreStep_rfl turn c
  | some p =>
    dsimp only
    by_cases hs : p.state = States.pending
    · rw [if_pos hs]
      set c1 : Core := { c with heap := c.heap.set pid { p with state := st, value := v } } with hc1
      refine CoreStep_trans ?_ (exec_CoreStep turn c1 pid)
      refine ⟨le_refl _, fun tk htk => Or.inl htk, ?_, ?_⟩
      · intro q cb hcb
        left
        unfold cbsOf at hcb ⊢
        by_cases hq : pid = q
        · subst hq
          rw [List.getElem?_set_self', hg] at hcb
          rw [hg]
          exact hcb
        · rwa [List.getElem?_set_ne hq] at hcb
      · intro hq
        simp only [qinv, List.all_eq_true] at hq ⊢
        intro x hx
        rcases List.mem_or_eq_of_mem_set hx with h | h
        · exact hq x h
        · subst h
          have := hq p (List.getElem?_mem hg)
          simpa [idsOf] using this
    · rw [if_neg hs]; exact CoreStep_rfl turn c

theorem addCallback_CoreStep (turn : Nat) (c : Core) (pid : Nat) (hF hR : HandlerCode) :
    CoreStep turn c (addCallbackCore turn c pid hF hR) := by
  unfold addCallbackCore
  cases hg : c.heap[pid]? with
  | none => exact CoreStep_rfl turn c
  | some p =>
    dsimp only
    refine CoreStep_trans ?_ (exec_CoreStep turn { c with
        heap := c.heap.set pid { p with callbacks := p.callbacks ++ [⟨c.nextCb, hF, hR⟩] },
        nextCb := c.nextCb + 1,
        regLog := c.regLog ++ [⟨pid, c.nextCb, turn⟩] } pid)
    refine ⟨Nat.le_succ _, fun _ htk => Or.inl htk, ?_, ?_⟩
    · intro q cb hcb
      unfold cbsOf at hcb ⊢
      by_cases hq : pid = q
      · subst hq
        rw [List.getElem?_set_self', hg] at hcb
        rw [hg]
        simp only [Option.map_some] at hcb
        rcases List.mem_append.mp hcb with h | h
        · exact Or.inl h
        · right
          rw [List.mem_singleton.mp h]
      · rw [List.getElem?_set_ne hq] at hcb
        exact Or.inl hcb
    · intro hq
      simp only [qinv, List.all_eq_true, Bool.and_eq_true] at hq ⊢
      intro x hx
      rcases List.mem_or_eq_of_mem_set hx with h | h
      · have := hq x h
        exact ⟨this.1, allLt_mono this.2 (Nat.le_succ _)⟩
      · subst h
        have hp := hq p (List.getElem?_mem hg)
        have hids : idsOf { p with callbacks := p.callbacks ++ [⟨c.nextCb, hF, hR⟩] }
            = idsOf p ++ [c.nextCb] := by
          simp [idsOf]
        rw [hids]
        constructor
        · refine pairwiseLt_append_one hp.1 ?_
          intro x hx
          have := hp.2
          simp only [allLt, List.all_eq_true, decide_eq_true_eq] at this
          exact this x hx
        · exact allLt_append_one (allLt_mono hp.2 (Nat.le_succ _)) (Nat.lt_succ_self _)

theorem mkPromise_CoreStep (turn : Nat) (c : Core) :
    CoreStep turn c (mkPromiseCore c).1 := by
  unfold mkPromiseCore
  refine ⟨le_refl _, fun tk htk => Or.inl htk, ?_, ?_⟩
  · intro q cb hcb
    left
    unfold cbsOf at hcb ⊢
    by_cases hq : q < c.heap.length
    · rwa [List.getElem?_append_left hq] at hcb
    · rw [List.getElem?_append_right (Nat.le_of_not_lt hq)] at hcb
      cases hq2 : ([(⟨States.pending, JSValue.null, []⟩ : PromObj)])[q - c.heap.length]? with
      | none => rw [hq2] at hcb; simp at hcb
      | some x =>
        rw [hq2] at hcb
        have : x = ⟨States.pending, JSValue.null, []⟩ := by
          cases hd : q - c.heap.length with
          | zero => rw [hd] at hq2; injection hq2 with h; exact h.symm
          | succ k => rw [hd] at hq2; simp at hq2
        rw [this] at hcb
        simp at hcb
  · intro hq
    simp only [qinv, List.all_eq_true, Bool.and_eq_true] at hq ⊢
    intro x hx
    rcases List.mem_append.mp hx with h | h
    · exact hq x h
    · rw [List.mem_singleton.mp h]
      exact ⟨rfl, rfl⟩

theorem thenOp_CoreStep (turn : Nat) (c : Core) (src : Nat) (onF onR : Option FnCode) :
    CoreStep turn c (thenOpCore turn c src onF onR).1 := by
  unfold thenOpCore
  exact CoreStep_trans (mkPromise_CoreStep turn c)
    (addCallback_CoreStep turn (mkPromiseCore c).1 src _ _)

theorem resolverGo_CoreStep : ∀ fuel turn : Nat, ∀ t : RTask, ∀ c : Core,
    CoreStep turn c (resolverGo fuel turn t c).core := by
  intro fuel
  induction fuel with
  | zero => intro turn t c; exact CoreStep_rfl turn c
  | succ n ih =>
    intro turn t c
    cases t with
    | rv pid v =>
      cases v with
      | null => exact transition_CoreStep turn c pid States.resolved JSValue.null
      | undef => exact transition_CoreStep turn c pid States.resolved JSValue.undef
      | vbool b => exact transition_CoreStep turn c pid States.resolved (JSValue.vbool b)
      | num m => exact transition_CoreStep turn c pid States.resolved (JSValue.num m)
      | str s => exact transition_CoreStep turn c pid States.resolved (JSValue.str s)
      | typeError m => exact transition_CoreStep turn c pid States.resolved (JSValue.typeError m)
      | promise q =>
        by_cases hq : q = pid
        · subst hq
          have h1 := transition_CoreStep turn c q States.rejected (JSValue.typeError selfMsg)
          unfold resolverGo
          dsimp only
          rw [if_pos rfl]
          exact h1
        · have h1 := thenOp_CoreStep turn c q
            (some (FnCode.resolverOf pid)) (some (FnCode.rejectOf pid))
          unfold resolverGo
          dsimp only
          rw [if_neg hq]
          exact h1
      | obj acc => exact ih turn (RTask.ht pid (JSValue.obj acc) acc) c
      | func acc => exact ih turn (RTask.ht pid (JSValue.func acc) acc) c
    | ht pid orig acc =>
      cases acc with
      | nil => exact transition_CoreStep turn c pid States.resolved orig
      | cons g t2 =>
        cases g with
        | throws r => exact transition_CoreStep turn c pid States.rejected r
        | notFn u => exact transition_CoreStep turn c pid States.resolved orig
        | fn body => exact ih turn (RTask.acts pid body false) c
        | fnThenThrows body r =>
          show CoreStep turn c
            (if (resolverGo n turn (RTask.acts pid body false) c).was then
              (resolverGo n turn (RTask.acts pid body false) c).core
            else rejectP turn (resolverGo n turn (RTask.acts pid body false) c).core pid r)
          split
          · exact ih turn (RTask.acts pid body false) c
          · exact CoreStep_trans (ih turn (RTask.acts pid body false) c)
              (transition_CoreStep turn _ pid States.rejected r)
    | acts pid l was =>
      cases l with
      | nil => exact CoreStep_rfl turn c
      | cons a rest =>
        cases was with
        | true => exact ih turn (RTask.acts pid rest true) c
        | false =>
          cases a with
          | callRes y =>
            exact CoreStep_trans (ih turn (RTask.rv pid y) c)
              (ih turn (RTask.acts pid rest true) _)
          | callRej y =>
            exact CoreStep_trans (transition_CoreStep turn c pid States.rejected y)
              (ih turn (RTask.acts pid rest true) _)

theorem runFn_CoreStep (fuel turn : Nat) (f : FnCode) (v : JSValue) (c : Core) :
    CoreStep turn c (runFn fuel turn f v c).1 := by
  cases f with
  | constF u => exact CoreStep_rfl turn c
  | addOne => cases v <;> exact CoreStep_rfl turn c
  | strLen => cases v <;> exact CoreStep_rfl turn c
  | throwF u => exact CoreStep_rfl turn c
  | resolverOf pid => exact resolverGo_CoreStep fuel turn (RTask.rv pid v) c
  | rejectOf pid => exact transition_CoreStep turn c pid States.rejected v
  | thenRegF src g => exact thenOp_CoreStep turn c src g none

theorem runHandler_CoreStep (fuel turn : Nat) (h : HandlerCode) (v : JSValue) (c : Core) :
    CoreStep turn c (runHandler fuel turn h v c) := by
  cases h with
  | member fn b np =>
    cases fn with
    | none =>
      cases b with
      | true => exact resolverGo_CoreStep fuel turn (RTask.rv np v) c
      | false => exact transition_CoreStep turn c np States.rejected v
    | some f =>
      have h1 := runFn_CoreStep fuel turn f v c
      unfold runHandler
      cases b <;>
      · dsimp only
        cases (runFn fuel turn f v c).2 with
        | ok u =>
          exact CoreStep_trans h1 (resolverGo_CoreStep fuel turn (RTask.rv np u) _)
        | error e =>
          exact CoreStep_trans h1 (transition_CoreStep turn _ np States.rejected e)

/-! ### World-level lemmas: the drain loop and the event loop -/

theorem fireLoop_spec : ∀ fuel pid : Nat, ∀ sel : CbSel, ∀ w : World,
    (fireLoop fuel pid sel w).turn = w.turn ∧
    (∀ e ∈ (fireLoop fuel pid sel w).log, e ∈ w.log ∨ e.turn = w.turn) ∧
    (∀ tk ∈ (fireLoop fuel pid sel w).core.tasks, tk ∈ w.core.tasks ∨ tk.tag = w.turn) := by
  intro fuel
  induction fuel with
  | zero => intro pid sel w; exact ⟨rfl, fun _ he => Or.inl he, fun _ htk => Or.inl htk⟩
  | succ n ih =>
    intro pid sel w
    unfold fireLoop
    cases hg : w.core.heap[pid]? with
    | none => exact ⟨rfl, fun _ he => Or.inl he, fun _ htk => Or.inl htk⟩
    | some p =>
      dsimp only
      cases hc : p.callbacks with
      | nil => exact ⟨rfl, fun _ he => Or.inl he, fun _ htk => Or.inl htk⟩
      | cons cb rest =>
        have hW := ih pid sel
          ⟨runHandler n w.turn (selectHandler sel cb) p.value
              { w.core with heap := w.core.heap.set pid { p with callbacks := rest } },
            w.turn, w.log ++ [⟨pid, cb.cbId, w.turn⟩]⟩
        have hstep := runHandler_CoreStep n w.turn (selectHandler sel cb) p.value
          { w.core with heap := w.core.heap.set pid { p with callbacks := rest } }
        refine ⟨hW.1, ?_, ?_⟩
        · intro e he
          rcases hW.2.1 e he with h | h
          · rcases List.mem_append.mp h with h2 | h2
            · exact Or.inl h2
            · right; rw [List.mem_singleton.mp h2]
          · exact Or.inr h
        · intro tk htk
          rcases hW.2.2 tk htk with h | h
          · rcases hstep.2.1 tk h with h2 | h2
            · exact Or.inl h2
            · exact Or.inr h2
          · exact Or.inr h

theorem fireLoop_cbs_empty (fuel pid : Nat) (sel : CbSel) (w : World)
    (h : cbsOf w.core pid = []) : fireLoop (fuel + 1) pid sel w = w := by
  unfold fireLoop
  unfold cbsOf at h
  cases hg : w.core.heap[pid]? with
  | none => rfl
  | some p =>
    rw [hg] at h
    dsimp only at h ⊢
    rw [h]

theorem winv_CoreStep_lift (t : Nat) (w : World) (c' : Core) (hs : CoreStep t w.core c')
    (hw : winv w = true) : winv ⟨c', w.turn, w.log⟩ = true := by
  simp only [winv, Bool.and_eq_true] at hw
  obtain ⟨⟨⟨hq, hp⟩, hlq⟩, hln⟩ := hw
  simp only [winv, Bool.and_eq_true]
  refine ⟨⟨⟨hs.2.2.2 hq, hp⟩, ?_⟩, ?_⟩
  · simp only [logLtQueues, List.all_eq_true, decide_eq_true_eq] at hlq ⊢
    intro e he cb hcb
    rcases hs.2.2.1 e.pid cb hcb with h | h
    · exact hlq e he cb h
    · simp only [logLtNext, List.all_eq_true, decide_eq_true_eq] at hln
      exact lt_of_lt_of_le (hln e he) h
  · simp only [logLtNext, List.all_eq_true, decide_eq_true_eq] at hln ⊢
    intro e he
    exact lt_of_lt_of_le (hln e he) hs.1

theorem winv_shift (w : World) (pid : Nat) (p : PromObj) (cb : Callback) (rest : List Callback)
    (hg : w.core.heap[pid]? = some p) (hc : p.callbacks = cb :: rest)
    (hw : winv w = true) :
    winv ⟨{ w.core with heap := w.core.heap.set pid { p with callbacks := rest } }, w.turn,
      w.log ++ [⟨pid, cb.cbId, w.turn⟩]⟩ = true := by
  simp only [winv, Bool.and_eq_true] at hw
  obtain ⟨⟨⟨hq, hp⟩, hlq⟩, hln⟩ := hw
  have hmem : p ∈ w.core.heap := List.getElem?_mem hg
  have hqp : pairwiseLt (idsOf p) = true ∧ allLt (idsOf p) w.core.nextCb = true := by
    simp only [qinv, List.all_eq_true, Bool.and_eq_true] at hq
    exact hq p hmem
  have hids : idsOf p = cb.cbId :: rest.map (fun x => x.cbId) := by
    simp [idsOf, hc]
  have hheadlt : ∀ x ∈ rest.map (fun x => x.cbId), cb.cbId < x :=
    pairwiseLt_head (by rw [hids] at hqp; exact hqp.1)
  have hheadN : cb.cbId < w.core.nextCb := allLt_head (by rw [hids] at hqp; exact hqp.2)
  have hcbsOld : cbsOf w.core pid = cb :: rest := by
    unfold cbsOf
    rw [hg]
    exact hc
  have hcbsNew : ∀ x : Nat,
      cbsOf { w.core with heap := w.core.heap.set pid { p with callbacks := rest } } x
        = if pid = x then rest else cbsOf w.core x := by
    intro x
    unfold cbsOf
    by_cases hx : pid = x
    · subst hx
      rw [if_pos rfl, List.getElem?_set_self', hg]
      rfl
    · rw [if_neg hx, List.getElem?_set_ne hx]
  simp only [winv, Bool.and_eq_true]
  refine ⟨⟨⟨?_, ?_⟩, ?_⟩, ?_⟩
  · simp only [qinv, List.all_eq_true, Bool.and_eq_true] at hq ⊢
    intro x hx
    rcases List.mem_or_eq_of_mem_set hx with h | h
    · exact hq x h
    · subst h
      have hidr : idsOf { p with callbacks := rest } = rest.map (fun x => x.cbId) := by
        simp [idsOf]
      rw [hidr]
      constructor
      · exact pairwiseLt_tail (by rw [hids] at hqp; exact hqp.1)
      · exact allLt_of_tail (by rw [hids] at hqp; exact hqp.2)
  · refine logPairsOk_append_one hp ?_
    intro e2 he2
    by_cases hpe : e2.pid = pid
    · right
      simp only [logLtQueues, List.all_eq_true, decide_eq_true_eq] at hlq
      have := hlq e2 he2 cb (by rw [hpe, hcbsOld]; exact List.mem_cons_self cb rest)
      exact this
    · exact Or.inl hpe
  · simp only [logLtQueues, List.all_eq_true, decide_eq_true_eq] at hlq ⊢
    intro e he cb' hcb'
    rcases List.mem_append.mp he with h | h
    · rw [hcbsNew e.pid] at hcb'
      by_cases hx : pid = e.pid
      · rw [if_pos hx] at hcb'
        exact hlq e h cb' (by rw [← hx, hcbsOld]; exact List.mem_cons_of_mem cb hcb')
      · rw [if_neg hx] at hcb'
        exact hlq e h cb' hcb'
    · rw [List.mem_singleton.mp h] at hcb' ⊢
      rw [hcbsNew pid, if_pos rfl] at hcb'
      exact hheadlt cb'.cbId (List.mem_map_of_mem (fun x => x.cbId) hcb')
  · simp only [logLtNext, List.all_eq_true, decide_eq_true_eq] at hln ⊢
    intro e he
    rcases List.mem_append.mp he with h | h
    · exact hln e h
    · rw [List.mem_singleton.mp h]
      exact hheadN

theorem fireLoop_winv : ∀ fuel pid : Nat, ∀ sel : CbSel, ∀ w : World,
    winv w = true → winv (fireLoop fuel pid sel w) = true := by
  intro fuel
  induction fuel with
  | zero => intro pid sel w h; exact h
  | succ n ih =>
    intro pid sel w hw
    unfold fireLoop
    cases hg : w.core.heap[pid]? with
    | none => exact hw
    | some p =>
      dsimp only
      cases hc : p.callbacks with
      | nil => exact hw
      | cons cb rest =>
        apply ih
        have hw2 := winv_shift w pid p cb rest hg hc hw
        exact winv_CoreStep_lift w.turn
          ⟨{ w.core with heap := w.core.heap.set pid { p with callbacks := rest } }, w.turn,
            w.log ++ [⟨pid, cb.cbId, w.turn⟩]⟩
          (runHandler n w.turn (selectHandler sel cb) p.value
            { w.core with heap := w.core.heap.set pid { p with callbacks := rest } })
          (runHandler_CoreStep n w.turn (selectHandler sel cb) p.value
            { w.core with heap := w.core.heap.set pid { p with callbacks := rest } })
          hw2

theorem runTask_winv (fuel : Nat) (w : World) (hw : winv w = true) :
    winv (runTask fuel w) = true := by
  unfold runTask
  cases w.core.tasks with
  | nil => exact hw
  | cons tk rest => exact fireLoop_winv fuel tk.pid tk.sel _ hw

theorem runMachine_winv : ∀ fuel : Nat, ∀ w : World, winv w = true →
    winv (runMachine fuel w) = true := by
  intro fuel
  induction fuel with
  | zero => intro w h; exact h
  | succ n ih =>
    intro w hw
    unfold runMachine
    cases w.core.tasks with
    | nil => exact hw
    | cons tk rest => exact ih _ (runTask_winv n w hw)

/-! ### The claims -/

/-- C1. For every DeferredValue and every sequence of settlement attempts
(fulfill or reject, in any order, any number of times), the container
transitions from `Pending` to a terminal state at most once: the first
attempt stores its state and payload (leaving the registered reactions
untouched), and every later attempt leaves the entire state — state,
payload and registered reactions — literally unchanged (`_transition`
returns before touching anything when not pending, lines 113–122). -/
theorem C1_exactly_once_settlement (turn : Nat) (c : Core) (pid : Nat)
    (a : Attempt) (rest : List Attempt)
    (hp : stateOf c pid = some States.pending) :
    stateOf (applyAttempt turn c pid a) pid = some (attemptState a) ∧
    valueOf (applyAttempt turn c pid a) pid = some (attemptPayload a) ∧
    cbsOf (applyAttempt turn c pid a) pid = cbsOf c pid ∧
    List.foldl (fun cc at1 => applyAttempt turn cc pid at1) (applyAttempt turn c pid a) rest
      = applyAttempt turn c pid a := by
  obtain ⟨p, hg, hs⟩ := stateOf_eq_pending c pid hp
  have hcbs : cbsOf c pid = p.callbacks := by unfold cbsOf; rw [hg]
  cases a with
  | fulfillA v =>
    have h3 := transition_pending_state turn c pid States.resolved v p hg hs
    refine ⟨h3.1, h3.2.1, by rw [hcbs]; exact h3.2.2, ?_⟩
    exact foldl_applyAttempt_settled turn pid rest _ States.resolved h3.1 (by simp)
  | rejectA r =>
    have h3 := transition_pending_state turn c pid States.rejected r p hg hs
    refine ⟨h3.1, h3.2.1, by rw [hcbs]; exact h3.2.2, ?_⟩
    exact foldl_applyAttempt_settled turn pid rest _ States.rejected h3.1 (by simp)

/-- Witness for C1 at a concrete pending container and a concrete attempt
sequence. -/
theorem C1_exactly_once_settlement_witness :
    stateOf coreP 0 = some States.pending ∧
    stateOf (applyAttempt 0 coreP 0 (Attempt.fulfillA (JSValue.num 1))) 0
      = some States.resolved ∧
    List.foldl (fun cc at1 => applyAttempt 0 cc 0 at1)
        (applyAttempt 0 coreP 0 (Attempt.fulfillA (JSValue.num 1)))
        [Attempt.rejectA (JSValue.str "late"), Attempt.fulfillA (JSValue.num 2)]
      = applyAttempt 0 coreP 0 (Attempt.fulfillA (JSValue.num 1)) := by
  have h := C1_exactly_once_settlement 0 coreP 0 (Attempt.fulfillA (JSValue.num 1))
    [Attempt.rejectA (JSValue.str "late"), Attempt.fulfillA (JSValue.num 2)] (by rfl)
  exact ⟨rfl, h.1, h.2.2.2⟩

/-- C2. The claim states that among all invocations of the two latched
callbacks handed to a foreign thenable, in any order and any number of
times, only the first has an effect on the dependent container. The code
violates this: `once` (lines 139–143) sets `wasCalled` only AFTER `fn()`
returns, so an invocation performed re-entrantly — while the first
invocation's `fn` is still running — passes the `wasCalled` guard and
runs too. Concretely, for a thenable `T1 = {then(res) { res(T2) }}` with
`T2 = {then() { res(42) }}` (where `T2.then` closes over the same outer
`res`), processing the single top-level call `res(T2)` runs `fn` for the
nested `res(42)` as well: both payloads appear in the fired list, and the
container settles with `42`, the value of the SECOND invocation. -/
theorem C2_once_latch_reentrancy :
    goCalls 10 false none [] [LCall.mk LPayload.subV [LCall.mk (LPayload.plainV 42) []]]
      = (true, some 42, [LPayload.subV, LPayload.plainV 42]) := rfl

/-- C5. Resolving a pending container with itself (`value === this`,
line 174) settles it as rejected with the `TypeError` — it always
rejects, never fulfills, never stays pending. -/
theorem C5_self_resolution_rejects (fuel turn : Nat) (c : Core) (pid : Nat)
    (hp : stateOf c pid = some States.pending) :
    stateOf (resolverGo (fuel + 1) turn (RTask.rv pid (JSValue.promise pid)) c).core pid
      = some States.rejected ∧
    valueOf (resolverGo (fuel + 1) turn (RTask.rv pid (JSValue.promise pid)) c).core pid
      = some (JSValue.typeError selfMsg) := by
  obtain ⟨p, hg, hs⟩ := stateOf_eq_pending c pid hp
  have h3 := transition_pending_state turn c pid States.rejected (JSValue.typeError selfMsg) p hg hs
  simpa [resolverGo, rejectP] using ⟨h3.1, h3.2.1⟩

/-- Witness for C5 at the concrete single-promise heap. -/
theorem C5_self_resolution_rejects_witness :
    stateOf coreP 0 = some States.pending ∧
    stateOf (resolverGo 1 0 (RTask.rv 0 (JSValue.promise 0)) coreP).core 0
      = some States.rejected := by
  exact ⟨rfl, (C5_self_resolution_rejects 0 0 coreP 0 (by rfl)).1⟩

/-- C8. `HelloPromise.reject(r)` (line 261) yields a container rejected
with exactly `r`, for EVERY `r` — including an own promise or a foreign
thenable — because `_reject` (line 241) settles directly through
`_transition` and the resolution procedure is never applied to rejection
reasons. -/
theorem C8_reject_stores_reason_exactly (turn : Nat) (c : Core) (r : JSValue) :
    (rejectStatic turn c r).2 = c.heap.length ∧
    stateOf (rejectStatic turn c r).1 (rejectStatic turn c r).2 = some States.rejected ∧
    valueOf (rejectStatic turn c r).1 (rejectStatic turn c r).2 = some r := by
  have hg : (c.heap ++ [(⟨States.pending, JSValue.null, []⟩ : PromObj)])[c.heap.length]?
      = some ⟨States.pending, JSValue.null, []⟩ := by simp
  have h3 := transition_pending_state turn
    { c with heap := c.heap ++ [⟨States.pending, JSValue.null, []⟩] }
    c.heap.length States.rejected r ⟨States.pending, JSValue.null, []⟩ hg rfl
  exact ⟨rfl, h3.1, h3.2.1⟩

theorem addCallback_stateOf (turn : Nat) (c : Core) (pid q : Nat) (hF hR : HandlerCode) :
    stateOf (addCallbackCore turn c pid hF hR) q = stateOf c q := by
  unfold addCallbackCore
  cases hg : c.heap[pid]? with
  | none => rfl
  | some p =>
    dsimp only
    unfold stateOf
    rw [exec_heap]
    by_cases h : pid = q
    · subst h
      rw [List.getElem?_set_self', hg]
      rfl
    · rw [List.getElem?_set_ne h]

theorem addCallback_cbs_target (turn : Nat) (c : Core) (pid : Nat) (hF hR : HandlerCode)
    (p : PromObj) (hg : c.heap[pid]? = some p) :
    cbsOf (addCallbackCore turn c pid hF hR) pid = p.callbacks ++ [⟨c.nextCb, hF, hR⟩] := by
  unfold addCallbackCore
  rw [hg]
  dsimp only
  unfold cbsOf
  rw [exec_heap, List.getElem?_set_self', hg]
  rfl

/-- C4. The chaining operation `then(onFulfilled?, onRejected?)`
(lines 200–222): it always synchronously returns a fresh pending
container and registers on the source the wrapper pair; when the source's
drain later invokes the matching wrapper with the settled payload, a
supplied handler that returns normally resolves the new container via the
Resolution Procedure with the returned value (2.2.7.1), one that throws
rejects it with the thrown value (2.2.7.2); an omitted fulfillment
handler passes the payload through into the new container's Resolution
Procedure (`fallback = resolve`, 2.2.7.3) and an omitted rejection
handler passes the reason directly into its rejection (`fallback =
reject`, 2.2.7.4). -/
theorem C4_then_chaining_semantics (fuel turn : Nat) :
    (∀ c : Core, ∀ src : Nat, ∀ onF onR : Option FnCode,
      (thenOpCore turn c src onF onR).2 = c.heap.length ∧
      stateOf (thenOpCore turn c src onF onR).1 c.heap.length = some States.pending) ∧
    (∀ c : Core, ∀ src : Nat, ∀ onF onR : Option FnCode, src < c.heap.length →
      cbsOf (thenOpCore turn c src onF onR).1 src
        = cbsOf c src ++ [⟨c.nextCb, HandlerCode.member onF true c.heap.length,
            HandlerCode.member onR false c.heap.length⟩]) ∧
    (∀ f : FnCode, ∀ v : JSValue, ∀ c c' : Core, ∀ u : JSValue, ∀ np : Nat, ∀ b : Bool,
      runFn fuel turn f v c = (c', Except.ok u) →
      runHandler fuel turn (HandlerCode.member (some f) b np) v c
        = (resolverGo fuel turn (RTask.rv np u) c').core) ∧
    (∀ f : FnCode, ∀ v : JSValue, ∀ c c' : Core, ∀ e : JSValue, ∀ np : Nat, ∀ b : Bool,
      runFn fuel turn f v c = (c', Except.error e) →
      runHandler fuel turn (HandlerCode.member (some f) b np) v c = rejectP turn c' np e ∧
      (stateOf c' np = some States.pending →
        stateOf (runHandler fuel turn (HandlerCode.member (some f) b np) v c) np
          = some States.rejected ∧
        valueOf (runHandler fuel turn (HandlerCode.member (some f) b np) v c) np = some e)) ∧
    (∀ v : JSValue, ∀ c : Core, ∀ np : Nat,
      runHandler fuel turn (HandlerCode.member none true np) v c
        = (resolverGo fuel turn (RTask.rv np v) c).core) ∧
    (∀ v : JSValue, ∀ c : Core, ∀ np : Nat, stateOf c np = some States.pending →
      stateOf (runHandler fuel turn (HandlerCode.member none false np) v c) np
        = some States.rejected ∧
      valueOf (runHandler fuel turn (HandlerCode.member none false np) v c) np = some v) := by
  refine ⟨?_, ?_, ?_, ?_, ?_, ?_⟩
  · intro c src onF onR
    refine ⟨rfl, ?_⟩
    unfold thenOpCore mkPromiseCore
    dsimp only
    rw [addCallback_stateOf]
    unfold stateOf
    simp
  · intro c src onF onR hlt
    unfold thenOpCore mkPromiseCore
    dsimp only
    have hg : c.heap[src]? = some c.heap[src] := List.getElem?_eq_getElem hlt
    have hg2 : (c.heap ++ [(⟨States.pending, JSValue.null, []⟩ : PromObj)])[src]?
        = some c.heap[src] := by
      rw [List.getElem?_append_left hlt]
      exact hg
    rw [addCallback_cbs_target _ _ _ _ _ _ hg2]
    unfold cbsOf
    rw [hg]
  · intro f v c c' u np b h
    unfold runHandler
    cases b <;> · dsimp only; rw [h]
  · intro f v c c' e np b h
    have hr : runHandler fuel turn (HandlerCode.member (some f) b np) v c = rejectP turn c' np e := by
      unfold runHandler
      cases b <;> · dsimp only; rw [h]
    refine ⟨hr, ?_⟩
    intro hp
    obtain ⟨p, hg, hs⟩ := stateOf_eq_pending c' np hp
    have h3 := transition_pending_state turn c' np States.rejected e p hg hs
    rw [hr]
    exact ⟨h3.1, h3.2.1⟩
  · intro v c np
    rfl
  · intro v c np hp
    obtain ⟨p, hg, hs⟩ := stateOf_eq_pending c np hp
    have h3 := transition_pending_state turn c np States.rejected v p hg hs
    exact ⟨h3.1, h3.2.1⟩

/-- Witness for C4: the spec's concrete scenario pieces — a supplied
handler `x => x + 1` invoked with `1` resolves the derived container via
the Resolution Procedure with `2`; a throwing handler rejects it; an
omitted rejection handler passes the reason through to a direct
rejection. -/
theorem C4_then_chaining_semantics_witness :
    (runHandler 5 0 (HandlerCode.member (some FnCode.addOne) true 0) (JSValue.num 1) coreP
      = (resolverGo 5 0 (RTask.rv 0 (JSValue.num 2)) coreP).core) ∧
    (stateOf (runHandler 5 0 (HandlerCode.member (some (FnCode.throwF (JSValue.str "bad"))) true 0)
        (JSValue.num 1) coreP) 0 = some States.rejected) ∧
    (stateOf (runHandler 5 0 (HandlerCode.member none false 0) (JSValue.str "boom") coreP) 0
      = some States.rejected) := by
  refine ⟨(C4_then_chaining_semantics 5 0).2.2.1 FnCode.addOne (JSValue.num 1) coreP coreP
      (JSValue.num 2) 0 true (by rfl), ?_, ?_⟩
  · exact (((C4_then_chaining_semantics 5 0).2.2.2.1 (FnCode.throwF (JSValue.str "bad"))
      (JSValue.num 1) coreP coreP (JSValue.str "bad") 0 true (by rfl)).2 (by rfl)).1
  · exact ((C4_then_chaining_semantics 5 0).2.2.2.2.2 (JSValue.str "boom") coreP 0 (by rfl)).1

theorem resolver_ordinary (fuel turn : Nat) (c : Core) (pid : Nat) (v : JSValue)
    (ho : claimOrdinary v = true) :
    (resolverGo (fuel + 2) turn (RTask.rv pid v) c).core
      = match thenThrowsWith v with
        | some r => rejectP turn c pid r
        | none => fulfillP turn c pid v := by
  cases v with
  | promise q => simp [claimOrdinary, isOwnPromise] at ho
  | obj acc =>
    cases acc with
    | nil => rfl
    | cons g t =>
      cases g with
      | throws r => rfl
      | notFn u => rfl
      | fn body => simp [claimOrdinary, hasCallableThen] at ho
      | fnThenThrows body r => simp [claimOrdinary, hasCallableThen] at ho
  | func acc =>
    cases acc with
    | nil => rfl
    | cons g t =>
      cases g with
      | throws r => rfl
      | notFn u => rfl
      | fn body => simp [claimOrdinary, hasCallableThen] at ho
      | fnThenThrows body r => simp [claimOrdinary, hasCallableThen] at ho
  | null => rfl
  | undef => rfl
  | vbool b => rfl
  | num n => rfl
  | str s => rfl
  | typeError m => rfl

/-- C7 counterexample. The claim quantifies over every value that is not
the container, not an own DeferredValue, and not a non-null
object/callable with a callable `then` member, and asserts the Resolution
Procedure settles the container as FULFILLED directly with it. A foreign
object whose `then` retrieval throws is in that class (no callable `then`
member can be obtained from it), yet the code (lines 146–161: the `catch`
around `const then = value.then`) settles the container REJECTED with the
thrown value. -/
theorem C7_ordinary_value_counterexample :
    claimOrdinary (JSValue.obj [GetResult.throws (JSValue.str "boom")]) = true ∧
    stateOf (resolverGo 5 0
        (RTask.rv 0 (JSValue.obj [GetResult.throws (JSValue.str "boom")])) coreP).core 0
      = some States.rejected ∧
    ¬ stateOf (resolverGo 5 0
        (RTask.rv 0 (JSValue.obj [GetResult.throws (JSValue.str "boom")])) coreP).core 0
      = some States.resolved ∧
    valueOf (resolverGo 5 0
        (RTask.rv 0 (JSValue.obj [GetResult.throws (JSValue.str "boom")])) coreP).core 0
      = some (JSValue.str "boom") :=
  ⟨rfl, rfl, by decide, rfl⟩

/-- C7 as amended. For every value in the claim's class the Resolution
Procedure settles the container synchronously and directly — as FULFILLED
with exactly that value, except when the value is a foreign object whose
very `then` retrieval throws, in which case it is REJECTED with the
thrown value; consequently `HelloPromise.resolve(v)` for a non-thenable
`v` whose `then` retrieval does not throw yields a container fulfilled
with exactly `v`. -/
theorem C7_amended_nonthenable_resolution (fuel turn : Nat) (c : Core) (pid : Nat) (v : JSValue)
    (ho : claimOrdinary v = true) :
    (∀ r : JSValue, thenThrowsWith v = some r → stateOf c pid = some States.pending →
      stateOf (resolverGo (fuel + 2) turn (RTask.rv pid v) c).core pid = some States.rejected ∧
      valueOf (resolverGo (fuel + 2) turn (RTask.rv pid v) c).core pid = some r) ∧
    (thenThrowsWith v = none → stateOf c pid = some States.pending →
      stateOf (resolverGo (fuel + 2) turn (RTask.rv pid v) c).core pid = some States.resolved ∧
      valueOf (resolverGo (fuel + 2) turn (RTask.rv pid v) c).core pid = some v) ∧
    (thenThrowsWith v = none →
      stateOf (resolveStatic (fuel + 2) turn c v).1 (resolveStatic (fuel + 2) turn c v).2
        = some States.resolved ∧
      valueOf (resolveStatic (fuel + 2) turn c v).1 (resolveStatic (fuel + 2) turn c v).2
        = some v) := by
  refine ⟨?_, ?_, ?_⟩
  · intro r ht hp
    obtain ⟨p, hg, hs⟩ := stateOf_eq_pending c pid hp
    have h3 := transition_pending_state turn c pid States.rejected r p hg hs
    rw [resolver_ordinary fuel turn c pid v ho, ht]
    exact ⟨h3.1, h3.2.1⟩
  · intro ht hp
    obtain ⟨p, hg, hs⟩ := stateOf_eq_pending c pid hp
    have h3 := transition_pending_state turn c pid States.resolved v p hg hs
    rw [resolver_ordinary fuel turn c pid v ho, ht]
    exact ⟨h3.1, h3.2.1⟩
  · intro ht
    unfold resolveStatic mkPromiseCore
    dsimp only
    have hg : (c.heap ++ [(⟨States.pending, JSValue.null, []⟩ : PromObj)])[c.heap.length]?
        = some ⟨States.pending, JSValue.null, []⟩ := by simp
    have h3 := transition_pending_state turn
      { c with heap := c.heap ++ [⟨States.pending, JSValue.null, []⟩] }
      c.heap.length States.resolved v ⟨States.pending, JSValue.null, []⟩ hg rfl
    rw [resolver_ordinary fuel turn _ c.heap.length v ho, ht]
    exact ⟨h3.1, h3.2.1⟩

/-- Witness for the amended C7 at concrete inputs: a plain number
fulfills directly, and a getter-throwing foreign object rejects. -/
theorem C7_amended_nonthenable_resolution_witness :
    (stateOf (resolverGo 7 0 (RTask.rv 0 (JSValue.num 7)) coreP).core 0
        = some States.resolved ∧
      valueOf (resolverGo 7 0 (RTask.rv 0 (JSValue.num 7)) coreP).core 0
        = some (JSValue.num 7)) ∧
    stateOf (resolverGo 7 0
        (RTask.rv 0 (JSValue.func [GetResult.throws JSValue.null])) coreP).core 0
      = some States.rejected := by
  refine ⟨(C7_amended_nonthenable_resolution 5 0 coreP 0 (JSValue.num 7) (by rfl)).2.1
      (by rfl) (by rfl), ?_⟩
  exact ((C7_amended_nonthenable_resolution 5 0 coreP 0
      (JSValue.func [GetResult.throws JSValue.null]) (by rfl)).1 JSValue.null
      (by rfl) (by rfl)).1

theorem acts_nil_depth (fuel turn : Nat) (c : Core) (pid : Nat) (b : Bool) :
    (resolverGo fuel turn (RTask.acts pid [] b) c).depth = 0 := by
  cases fuel with
  | zero => rfl
  | succ n => rfl

theorem chain_step (fuel turn : Nat) (c : Core) (pid : Nat) (n : Nat) :
    (resolverGo (fuel + 3) turn (RTask.rv pid (chainT (n + 1))) c).depth
      = 1 + max (resolverGo fuel turn (RTask.rv pid (chainT n)) c).depth
          (resolverGo fuel turn (RTask.acts pid [] true)
            (resolverGo fuel turn (RTask.rv pid (chainT n)) c).core).depth := rfl

theorem chainT_depth (n : Nat) : ∀ fuel turn : Nat, ∀ c : Core, ∀ pid : Nat,
    (resolverGo (3 * n + fuel + 1) turn (RTask.rv pid (chainT n)) c).depth = n + 1 := by
  induction n with
  | zero =>
    intro fuel turn c pid
    have h : 3 * 0 + fuel + 1 = fuel + 1 := by ring
    rw [h]
    rfl
  | succ n ih =>
    intro fuel turn c pid
    have h : 3 * (n + 1) + fuel + 1 = 3 * n + fuel + 1 + 3 := by ring
    rw [h, chain_step, acts_nil_depth, ih fuel turn c pid]
    omega

/-- C9 counterexample. The claim asserts every recursive resolution step
is re-entered through the scheduler, so synchronous foreign-thenable
chains are processed without call-stack growth proportional to chain
depth — formally, the ghost synchronous `_resolver` nesting depth should
not depend on the chain length. It does: a 10-link synchronous thenable
chain reaches nesting depth 11 while a 0-link chain reaches 1, because
`_handleThen` invokes the foreign `then` directly (line 153) and the
callback it hands over calls `this._resolver(y)` on the same call stack
(line 154). -/
theorem C9_stack_growth_counterexample :
    ¬ ((resolverGo 100 0 (RTask.rv 0 (chainT 10)) coreP).depth
        = (resolverGo 100 0 (RTask.rv 0 (chainT 0)) coreP).depth) := by decide

/-- C9 as amended. Resolution through an OWN DeferredValue (step 2,
lines 177–179) is re-entered through the scheduler: the synchronous part
only registers a subscription
(`value.then(this._resolver, this._reject)`, whose handlers run from a
later drain turn) and adds no synchronous resolver nesting (depth stays
1). Resolution through a foreign thenable whose `then` calls back
synchronously (step 3, lines 153–156) recurses on the call stack: an
`n`-link chain reaches synchronous nesting depth exactly `n + 1`. -/
theorem C9_amended_resolution_reentry :
    (∀ n fuel turn : Nat, ∀ c : Core, ∀ pid : Nat,
      (resolverGo (3 * n + fuel + 1) turn (RTask.rv pid (chainT n)) c).depth = n + 1) ∧
    (∀ fuel turn : Nat, ∀ c : Core, ∀ pid q : Nat, q ≠ pid →
      (resolverGo (fuel + 1) turn (RTask.rv pid (JSValue.promise q)) c).depth = 1 ∧
      (q < c.heap.length →
        cbsOf (resolverGo (fuel + 1) turn (RTask.rv pid (JSValue.promise q)) c).core q
          = cbsOf c q ++ [⟨c.nextCb,
              HandlerCode.member (some (FnCode.resolverOf pid)) true c.heap.length,
              HandlerCode.member (some (FnCode.rejectOf pid)) false c.heap.length⟩])) := by
  refine ⟨fun n fuel turn c pid => chainT_depth n fuel turn c pid, ?_⟩
  intro fuel turn c pid q hne
  have hred : resolverGo (fuel + 1) turn (RTask.rv pid (JSValue.promise q)) c
      = ⟨(thenOpCore turn c q (some (FnCode.resolverOf pid)) (some (FnCode.rejectOf pid))).1,
          1, false, JSValue.promise c.heap.length⟩ := by
    unfold resolverGo
    dsimp only
    rw [if_neg hne]
    rfl
  refine ⟨by rw [hred], ?_⟩
  intro hlt
  rw [hred]
  unfold thenOpCore mkPromiseCore
  dsimp only
  have hg : c.heap[q]? = some c.heap[q] := List.getElem?_eq_getElem hlt
  have hg2 : (c.heap ++ [(⟨States.pending, JSValue.null, []⟩ : PromObj)])[q]?
      = some c.heap[q] := by
    rw [List.getElem?_append_left hlt]
    exact hg
  rw [addCallback_cbs_target _ _ _ _ _ _ hg2]
  unfold cbsOf
  rw [hg]

/-- Witness for the amended C9: concrete chain of length 2 reaches depth
3; resolving with an own promise keeps depth 1 and registers the
deferred subscription. -/
theorem C9_amended_resolution_reentry_witness :
    (resolverGo 7 0 (RTask.rv 0 (chainT 2)) coreP).depth = 3 ∧
    (resolverGo 5 0 (RTask.rv 1 (JSValue.promise 0)) coreP).depth = 1 ∧
    cbsOf (resolverGo 5 0 (RTask.rv 1 (JSValue.promise 0)) coreP).core 0
      = [⟨0, HandlerCode.member (some (FnCode.resolverOf 1)) true 1,
          HandlerCode.member (some (FnCode.rejectOf 1)) false 1⟩] := by
  have h1 := C9_amended_resolution_reentry.1 2 0 0 coreP 0
  have h2 := C9_amended_resolution_reentry.2 4 0 coreP 1 0 (by decide)
  exact ⟨h1, h2.1, by rw [h2.2 (by decide)]; rfl⟩

/-- C3 counterexample. The claim states that a Reaction's handler never
executes in the same scheduling turn as the call that registered it,
"even when [the registration] is made from inside another handler running
in an ongoing drain". The code violates exactly that case: the drain's
`while (this.callbacks.length)` loop (line 79) re-reads the live queue,
so a reaction registered on the same already-settled promise from inside
a handler is picked up and fired later in the SAME drain turn. In the
scenario `c3Start` (`p = resolve(1); p.then(x => { p.then(_ => 7) })`),
the inner reaction (ghost id `1`) is registered during turn `1` (it
appears in the registration log with turn `1`) and its handler is also
invoked during turn `1` (it appears in the invocation log with turn `1`). -/
theorem C3_same_turn_firing_counterexample :
    (⟨0, 1, 1⟩ : Ev) ∈ (runMachine 30 c3Start).core.regLog ∧
    (⟨0, 1, 1⟩ : Ev) ∈ (runMachine 30 c3Start).log := by decide

/-- C3 as amended. Settling (`_transition`) and registering
(`_addCallback`) never invoke a handler synchronously: they only enqueue
a drain task, tagged with the current turn (handler invocations happen
only inside the drain loop, which runs from the task queue — in the
model, these operations act on `Core`, which does not even contain the
invocation log). Every drain task executes in a turn strictly later than
every turn in which a task was enqueued (`tag < w.turn + 1`, the turn the
next task runs in), so a handler never fires synchronously inside the
registering or settling call itself. The exception the code admits —
and the counterexample exhibits — is a registration made from INSIDE a
handler during an ongoing drain of the same settled container, whose
handler may fire later within that same drain turn. -/
theorem C3_no_sync_firing_amended :
    (∀ turn : Nat, ∀ c : Core, ∀ pid : Nat, ∀ hF hR : HandlerCode,
      ∀ tk ∈ (addCallbackCore turn c pid hF hR).tasks, tk ∈ c.tasks ∨ tk.tag = turn) ∧
    (∀ turn : Nat, ∀ c : Core, ∀ pid : Nat, ∀ st : States, ∀ v : JSValue,
      ∀ tk ∈ (transitionCore turn c pid st v).tasks, tk ∈ c.tasks ∨ tk.tag = turn) ∧
    (∀ fuel : Nat, ∀ w : World, tagsLE w = true →
      tagsLE (runTask fuel w) = true ∧
      (∀ e ∈ (runTask fuel w).log, e ∈ w.log ∨ e.turn = w.turn + 1) ∧
      (∀ tk ∈ w.core.tasks, tk.tag < w.turn + 1)) := by
  refine ⟨?_, ?_, ?_⟩
  · intro turn c pid hF hR
    exact (addCallback_CoreStep turn c pid hF hR).2.1
  · intro turn c pid st v
    exact (transition_CoreStep turn c pid st v).2.1
  · intro fuel w hw
    simp only [tagsLE, List.all_eq_true, decide_eq_true_eq] at hw
    unfold runTask
    cases ht : w.core.tasks with
    | nil =>
      refine ⟨?_, fun e he => Or.inl he, ?_⟩
      · simp only [tagsLE, List.all_eq_true, decide_eq_true_eq]
        exact hw
      · intro tk htk
        simp at htk
    | cons tk rest =>
      dsimp only
      have hF := fireLoop_spec fuel tk.pid tk.sel
        ⟨{ w.core with tasks := rest }, w.turn + 1, w.log⟩
      have hT : (fireLoop fuel tk.pid tk.sel
          ⟨{ w.core with tasks := rest }, w.turn + 1, w.log⟩).turn = w.turn + 1 := hF.1
      refine ⟨?_, ?_, ?_⟩
      · simp only [tagsLE, List.all_eq_true, decide_eq_true_eq]
        intro tk2 htk2
        rw [hT]
        rcases hF.2.2 tk2 htk2 with h | h
        · have hm : tk2 ∈ w.core.tasks := by
            rw [ht]
            exact List.mem_cons_of_mem tk h
          have h2 := hw tk2 hm
          omega
        · omega
      · intro e he
        exact hF.2.1 e he
      · intro tk2 htk2
        have hm : tk2 ∈ w.core.tasks := by rw [ht]; exact htk2
        have := hw tk2 hm
        omega

/-- Witness for the amended C3 at a concrete world with one queued drain:
the tags stay bounded by the turn after running one task. -/
theorem C3_no_sync_firing_amended_witness :
    tagsLE c3Start = true ∧ tagsLE (runTask 10 c3Start) = true := by
  refine ⟨by rfl, (C3_no_sync_firing_amended.2.2 10 c3Start (by rfl)).1⟩

/-- C6. Reactions fire strictly in registration order once the container
settles, each at most once, and drains are idempotent. Ghost ids are
assigned to reaction pairs from a global counter at registration time, so
per-container registration order coincides with increasing id; the
invariant `winv` — preserved by arbitrary runs of the machine — contains
`logPairsOk`, which states that the ids of any two invocations logged for
the same container strictly increase in firing order: handlers fire in
FIFO registration order, and no reaction pair is ever invoked twice
(strict increase forbids repetition), even when multiple drain tasks are
scheduled for the same container. The second conjunct is drain
idempotence: a drain finding the queue empty (a previous drain already
fired everything) changes nothing — only reactions still present in the
queue fire. -/
theorem C6_fifo_firing :
    (∀ fuel : Nat, ∀ w : World, winv w = true →
      winv (runMachine fuel w) = true ∧ logPairsOk (runMachine fuel w).log = true) ∧
    (∀ fuel pid : Nat, ∀ sel : CbSel, ∀ w : World,
      cbsOf w.core pid = [] → fireLoop (fuel + 1) pid sel w = w) := by
  refine ⟨?_, fun fuel pid sel w h => fireLoop_cbs_empty fuel pid sel w h⟩
  intro fuel w hw
  have h1 := runMachine_winv fuel w hw
  refine ⟨h1, ?_⟩
  simp only [winv, Bool.and_eq_true] at h1
  exact h1.1.1.2

/-- Witness for C6: the in-drain registration scenario satisfies the
invariant, its full run fires in id order, and a drain of an empty queue
is the identity. -/
theorem C6_fifo_firing_witness :
    winv c3Start = true ∧ logPairsOk (runMachine 30 c3Start).log = true ∧
    fireLoop 5 0 CbSel.onFulfilled ⟨coreP, 0, []⟩ = ⟨coreP, 0, []⟩ := by
  refine ⟨by rfl, (C6_fifo_firing.1 30 c3Start (by rfl)).2, ?_⟩
  exact C6_fifo_firing.2 4 0 CbSel.onFulfilled ⟨coreP, 0, []⟩ (by rfl)

/-- C10. `_handleThen` retrieves the `then` member exactly once
(line 147): its behavior depends only on the result of the FIRST
retrieval, so a getter returning different values on later accesses
cannot produce two different behaviors; and when that single retrieval
itself throws, the catch (lines 159–161) rejects the container with the
thrown value — the `once` latch cannot have fired yet at that point, so
the rejection always goes through on a pending container. -/
theorem C10_then_retrieved_once :
    (∀ fuel turn : Nat, ∀ c : Core, ∀ pid : Nat, ∀ v : JSValue, ∀ g : GetResult,
      ∀ rest rest' : List GetResult,
      resolverGo fuel turn (RTask.ht pid v (g :: rest)) c
        = resolverGo fuel turn (RTask.ht pid v (g :: rest')) c) ∧
    (∀ fuel turn : Nat, ∀ c : Core, ∀ pid : Nat, ∀ v r : JSValue, ∀ acc : List GetResult,
      stateOf c pid = some States.pending →
      stateOf (resolverGo (fuel + 1) turn (RTask.ht pid v (GetResult.throws r :: acc)) c).core pid
        = some States.rejected ∧
      valueOf (resolverGo (fuel + 1) turn (RTask.ht pid v (GetResult.throws r :: acc)) c).core pid
        = some r) := by
  constructor
  · intro fuel turn c pid v g rest rest'
    cases fuel with
    | zero => rfl
    | succ n => cases g <;> rfl
  · intro fuel turn c pid v r acc hp
    obtain ⟨p, hg, hs⟩ := stateOf_eq_pending c pid hp
    have h3 := transition_pending_state turn c pid States.rejected r p hg hs
    simpa [resolverGo, rejectP] using ⟨h3.1, h3.2.1⟩

/-- Witness for C10: a getter whose second retrieval would differ changes
nothing, and a throwing getter rejects the concrete pending container. -/
theorem C10_then_retrieved_once_witness :
    (resolverGo 3 0 (RTask.ht 0 JSValue.null [GetResult.notFn JSValue.undef, GetResult.fn []]) coreP
      = resolverGo 3 0 (RTask.ht 0 JSValue.null [GetResult.notFn JSValue.undef, GetResult.throws JSValue.null]) coreP) ∧
    stateOf (resolverGo 3 0
        (RTask.ht 0 JSValue.null [GetResult.throws (JSValue.str "bad")]) coreP).core 0
      = some States.rejected := by
  refine ⟨C10_then_retrieved_once.1 3 0 coreP 0 JSValue.null (GetResult.notFn JSValue.undef)
    [GetResult.fn []] [GetResult.throws JSValue.null], ?_⟩
  exact (C10_then_retrieved_once.2 2 0 coreP 0 JSValue.null (JSValue.str "bad") [] (by rfl)).1

end HelloPromiseModel
